import Mathlib

/-!
# Verification of the Bernstein–Vazirani Mastermind notebook

Shallow embedding of `QuantumAssignment.ipynb`: the classical codemaker,
the `QuantumEncoder` (oracle encoder / verifier), the `QuantumGuesser`
(Bernstein–Vazirani secret-recovery solver), and the `Game` loop, together
with an integer-amplitude state-vector semantics for the quantum circuits
the notebook builds.  Bit-strings are modelled as `List Char` (the Python
code manipulates `'0'`/`'1'` character strings).
-/

/-- A bit-string in the sense of the notebook: every character is `'0'` or `'1'`. -/
def isBitString (s : List Char) : Prop := ∀ c ∈ s, c = '0' ∨ c = '1'

instance (s : List Char) : Decidable (isBitString s) := by
  unfold isBitString; infer_instance

/-! ## The classical codemaker -/

/-- The `codemaker` class: it stores a code string (initially empty). -/
structure codemaker where
  code : List Char
deriving DecidableEq

/-- `codemaker.__init__`: `self.code = ''`. -/
def codemaker.init : codemaker := ⟨[]⟩

/-- `codemaker.setCode`: `self.code = ''` then
`for i in range(len(code)): self.code = self.code + code[i]` —
the stored code is rebuilt character by character from the argument. -/
def codemaker.setCode (_self : codemaker) (code : List Char) : codemaker :=
  ⟨(List.range code.length).foldl (fun acc i => acc ++ [code.getD i ' ']) []⟩

/-- `codemaker.getCode`: `return self.code`. -/
def codemaker.getCode (self : codemaker) : List Char := self.code

/-! ## The quantum circuit data model

Gates actually issued by the notebook: `x`, `h`, `cx`, `barrier`
(`measure` is kept outside the gate list and modelled in the execution
capability, mirroring qiskit's separation of the unitary part from the
final measurement of qubits `0..num_clbits-1` into classical bits). -/

inductive Gate where
  | x (q : Nat)
  | h (q : Nat)
  | cx (c t : Nat)
  | barrier
deriving DecidableEq

/-- A `QuantumCircuit(num_qubits, num_clbits)` together with its gate list. -/
structure Circuit where
  num_qubits : Nat
  num_clbits : Nat
  gates : List Gate
deriving DecidableEq

/-! ## The oracle encoder / verifier (`QuantumEncoder`) -/

/-- Indices `i` (offset by `k`) at which the character list holds `'1'`:
the translation of `for i, value in enumerate(s): if value == '1': …`. -/
def oneIndicesAux : List Char → Nat → List Nat
  | [], _ => []
  | c :: rest, k =>
    if c = '1' then k :: oneIndicesAux rest (k + 1) else oneIndicesAux rest (k + 1)

/-- Positions of the `'1'` characters of `s`, in increasing order. -/
def oneIndices (s : List Char) : List Nat := oneIndicesAux s 0

/-- `QuantumEncoder.encode`: build `QuantumCircuit(length+1, length)` and, for
each `i, value` in `enumerate(reversed(code))` with `value == '1'`, add
`qc.cx(i, len(code))` — a controlled-X from value qubit `i` onto the
accumulator qubit `len(code)`. -/
def QuantumEncoder.encode (code : List Char) : Circuit :=
  { num_qubits := code.length + 1
    num_clbits := code.length
    gates := (oneIndices code.reverse).map (fun i => Gate.cx i code.length) }

/-- The loop of `QuantumEncoder.check`, scanning the stored code with index `i`:
`if value == '1' and input[i] == '1': odd = not odd`.  Python evaluates
`input[i]` only when `value == '1'` (short-circuit `and`); an out-of-range
index raises `IndexError`, modelled as `none`.

The source line is literally `odd = !odd`, which is not Python's boolean
negation (it is a syntax error as plain Python); the adjacent comment
"flip for every black spot" documents the intent, which is what is
modelled here (`!odd` as boolean negation). -/
def checkAux (input : List Char) : List Char → Nat → Bool → Option Bool
  | [], _, odd => some odd
  | c :: rest, i, odd =>
    if c = '1' then
      match input.get? i with
      | none => none
      | some ch => checkAux input rest (i + 1) (if ch = '1' then !odd else odd)
    else checkAux input rest (i + 1) odd

/-- `QuantumEncoder.check`: starting from `odd = False`, run the scanning loop
over the stored code against the guess, then
`return odd, self.code == input`.  `code` is the encoder's stored secret
(set by `encode`), `input` the guess.  `none` models the `IndexError`
raised when the loop indexes past the end of the guess. -/
def QuantumEncoder.check (code input : List Char) : Option (Bool × Bool) :=
  (checkAux input code 0 false).map (fun odd => (odd, code == input))

/-! ## The game loop (`Game.play`) -/

/-- Outcome of a finished game: the attempt counter at the matching guess, the
parity hints reported for the non-matching guesses, and the code string
printed in the final report. -/
structure PlayResult where
  attempts : Nat
  hints : List Bool
  reported : List Char
deriving DecidableEq

/-- The `while (not correct)` loop of `Game.play`.  `secretCode` is the code
the encoder holds (the game's own setter's code, used by `check`);
`globalCode` is the module-global `p1`'s code, which the final
`print(f'you found it, the code was: {p1.getCode()}')` reports; `guesses`
is the stream of guesses produced by the guess source.  Returns `none`
when the guesses run out before a match or `check` raises. -/
def playLoop (secretCode globalCode : List Char) :
    Nat → List Bool → List (List Char) → Option PlayResult
  | _, _, [] => none
  | attempts, hints, g :: rest =>
    match QuantumEncoder.check secretCode g with
    | none => none
    | some (hint, correct) =>
      if correct then some ⟨attempts, hints, globalCode⟩
      else playLoop secretCode globalCode (attempts + 1) (hints ++ [hint]) rest

/-- `Game.play` after the setter has produced `setterCode` (stored in the
encoder by `encode`): `attempts = 1`, then guess/check in a loop.
`globalCode` is the code held by the module-global `p1` at play time. -/
def Game.play (setterCode globalCode : List Char) (guesses : List (List Char)) :
    Option PlayResult :=
  playLoop setterCode globalCode 1 [] guesses

/-! ## State-vector semantics of the circuits

Amplitudes are unnormalised integers (every state the notebook's circuits
reach has amplitudes of the form `a / √2^k` with `a : ℤ` and a global `k`,
so the global factor is dropped; measurement statistics only depend on the
ratios).  A state over `n` qubits assigns an amplitude to every basis
assignment `Fin n → Bool`. -/

abbrev StateVec (n : Nat) := (Fin n → Bool) → ℤ

/-- Flip the bit of `v` at position `q`. -/
def flipAt {n : Nat} (v : Fin n → Bool) (q : Fin n) : Fin n → Bool :=
  Function.update v q (!(v q))

/-- Set the bit of `v` at position `q` to `b`. -/
def setAt {n : Nat} (v : Fin n → Bool) (q : Fin n) (b : Bool) : Fin n → Bool :=
  Function.update v q b

/-- One gate acting on an `n`-qubit state: `X` permutes basis states by a bit
flip, `H` maps `|0⟩ ↦ |0⟩+|1⟩`, `|1⟩ ↦ |0⟩−|1⟩` (unnormalised), `CX` flips
the target on basis states whose control is set, and `barrier` is the
identity.  Gates the circuit never issues out of range act as the
identity (qiskit would reject them; the notebook's circuits stay in
range). -/
def applyGate {n : Nat} (g : Gate) (ψ : StateVec n) : StateVec n :=
  match g with
  | .x q => fun v =>
      if h : q < n then ψ (flipAt v ⟨q, h⟩) else ψ v
  | .h q => fun v =>
      if h : q < n then
        ψ (setAt v ⟨q, h⟩ false) +
          (if v ⟨q, h⟩ then -ψ (setAt v ⟨q, h⟩ true) else ψ (setAt v ⟨q, h⟩ true))
      else ψ v
  | .cx c t => fun v =>
      if hc : c < n then
        if ht : t < n then
          (if v ⟨c, hc⟩ then ψ (flipAt v ⟨t, ht⟩) else ψ v)
        else ψ v
      else ψ v
  | .barrier => ψ

/-- Run a gate list left to right. -/
def runGates {n : Nat} (gs : List Gate) (ψ : StateVec n) : StateVec n :=
  gs.foldl (fun φ g => applyGate g φ) ψ

/-- The all-zero initial state `|0…0⟩`. -/
def initState (n : Nat) : StateVec n :=
  fun v => if v = fun _ => false then 1 else 0

/-- A basis state `|v⟩`. -/
def basisState {n : Nat} (v : Fin n → Bool) : StateVec n :=
  fun u => if u = v then 1 else 0

/-! ## The execution capability (state simulator) -/

/-- Failures surfaced by the execution boundary. -/
inductive QErr where
  | invalidProgram
  | executionFailure
deriving DecidableEq

/-- The bit-string key under which qiskit's `get_counts()` files a measured
assignment: `measure(range(num_qubits-1), range(num_clbits))` copies qubit
`j` into classical bit `j`, and the counts key lists classical bits with
clbit `num_clbits-1` leftmost and clbit `0` rightmost (unmeasured clbits
read `'0'`). -/
def countsKey (n clbits : Nat) (v : Fin n → Bool) : List Char :=
  (List.range clbits).reverse.map (fun j =>
    if h : j < n - 1 then
      (if v ⟨j, Nat.lt_of_lt_of_le h (Nat.sub_le n 1)⟩ then '1' else '0')
    else '0')

/-- All basis assignments over `n` qubits (the measurement sample space). -/
def allAssign : (n : Nat) → List (Fin n → Bool)
  | 0 => [fun _ => false]
  | n + 1 => (allAssign n).flatMap (fun v => [Fin.cons false v, Fin.cons true v])

/-- Modelled from the spec: the State Simulator capability
`execute(program, shots) -> frequency table of bit-strings`, in its ideal
(noiseless) form.  It rejects a malformed shot count (`shots < 1`) with
`InvalidProgramError`; otherwise it measures the final state.  Only the
deterministic case is modelled: when a single basis assignment carries
all the amplitude, every one of the `shots` samples yields that
assignment, so the frequency table is that single key with count
`shots`.  A final state with wider support would require genuine
sampling, which the embedding reports as an execution failure. -/
def idealExecute (qc : Circuit) (shots : Nat) : Except QErr (List (List Char × Nat)) :=
  if shots < 1 then .error .invalidProgram
  else
    match (allAssign qc.num_qubits).filter (fun v =>
        decide (runGates qc.gates (initState qc.num_qubits) v ≠ 0)) with
    | [v] => .ok [(countsKey qc.num_qubits qc.num_clbits v, shots)]
    | _ => .error .executionFailure

/-! ## Majority-vote decoding (`get_counts().most_frequent()`) -/

/-- Modelled from the spec: strict lexicographic order on bit-strings (a
proper prefix is smaller, otherwise the first differing character
decides). -/
def lexLt : List Char → List Char → Bool
  | [], [] => false
  | [], _ :: _ => true
  | _ :: _, [] => false
  | a :: as, b :: bs => if a < b then true else if a = b then lexLt as bs else false

/-- The running best entry of the majority vote: a later entry replaces the
current best when it is strictly more frequent, or equally frequent with
a lexicographically smaller key. -/
def bestOf (e : List Char × Nat) (rest : List (List Char × Nat)) : List Char × Nat :=
  rest.foldl
    (fun best p =>
      if best.2 < p.2 ∨ (p.2 = best.2 ∧ lexLt p.1 best.1 = true) then p else best)
    e

/-- Modelled from the spec: `most_frequent()` over a frequency table — the
most frequent outcome, ties broken deterministically towards the
lexicographically smallest key (the spec's resolution of the tie case);
`none` only on an empty table. -/
def mostFrequent : List (List Char × Nat) → Option (List Char)
  | [] => none
  | e :: rest => some (bestOf e rest).1

/-! ## The secret-recovery solver (`QuantumGuesser`) -/

/-- The Bernstein–Vazirani program `QuantumGuesser.guess` builds around the
oracle fragment `code`: `QuantumCircuit(code.num_qubits, code.num_clbits)`;
`qc.x(num_qubits-1)`; `qc.h(range(num_qubits))`; `qc.barrier()`;
`qc = qc.compose(code)`; `qc.barrier()`; `qc.h(range(num_qubits))`;
`qc.barrier()`; then `measure(range(num_qubits-1), range(num_clbits))`
(the measurement is part of the execution capability's semantics). -/
def QuantumGuesser.buildCircuit (code : Circuit) : Circuit :=
  { num_qubits := code.num_qubits
    num_clbits := code.num_clbits
    gates :=
      [Gate.x (code.num_qubits - 1)]
        ++ (List.range code.num_qubits).map Gate.h ++ [Gate.barrier]
        ++ code.gates ++ [Gate.barrier]
        ++ (List.range code.num_qubits).map Gate.h ++ [Gate.barrier] }

/-- The gates of the recovery program that precede the oracle fragment. -/
def bvPre (n : Nat) : List Gate :=
  [Gate.x (n - 1)] ++ (List.range n).map Gate.h ++ [Gate.barrier]

/-- The gates of the recovery program that follow the oracle fragment. -/
def bvSuf (n : Nat) : List Gate :=
  [Gate.barrier] ++ (List.range n).map Gate.h ++ [Gate.barrier]

/-- `QuantumGuesser.guess`: build the recovery program around the fragment,
hand it to the execution capability with the configured shot count, and
decode `get_counts().most_frequent()`.  The capability (qiskit's
`execute` with the constructor's `backend`) is passed explicitly; its
failures propagate unchanged.  An empty frequency table (a result schema
mismatch) surfaces as an execution failure. -/
def QuantumGuesser.guess (execute : Circuit → Nat → Except QErr (List (List Char × Nat)))
    (shots : Nat) (code : Circuit) : Except QErr (List Char) :=
  match execute (QuantumGuesser.buildCircuit code) shots with
  | .error e => .error e
  | .ok counts =>
    match mostFrequent counts with
    | some k => .ok k
    | none => .error .executionFailure

/-! ## Proof-level helper definitions -/

/-- The basis-state permutation effected by a `CX` gate: flip the target bit
when the control bit is set (identity out of range). -/
def cxStep {n : Nat} (c t : Nat) (v : Fin n → Bool) : Fin n → Bool :=
  if hc : c < n then
    if ht : t < n then (if v ⟨c, hc⟩ then flipAt v ⟨t, ht⟩ else v) else v
  else v

/-- The basis-state permutation effected by a list of `CX` gates (other gate
kinds are ignored; it is only applied to `CX`-only lists). -/
def cxPerm {n : Nat} : List Gate → (Fin n → Bool) → Fin n → Bool
  | [], v => v
  | Gate.cx c t :: rest, v => cxStep c t (cxPerm rest v)
  | _ :: rest, v => cxPerm rest v

/-- Parity of the bits of `v` at the (in-range) positions listed in `l`. -/
def ctrlParity {n : Nat} (l : List Nat) (v : Fin n → Bool) : Bool :=
  l.foldr (fun c acc => xor (if h : c < n then v ⟨c, h⟩ else false) acc) false

/-- The unnormalised single-qubit Hadamard on amplitude pairs:
`(a, b) ↦ (a + b, a − b)`. -/
def H2 (p : ℤ × ℤ) : ℤ × ℤ := (p.1 + p.2, p.1 - p.2)

/-- A pure tensor-product state: qubit `i` carries the amplitude pair `f i`
(`.1` on `|0⟩`, `.2` on `|1⟩`), and a basis assignment's amplitude is the
product of the per-qubit components. -/
def prodState {n : Nat} (f : Fin n → ℤ × ℤ) : StateVec n :=
  fun v => ∏ i, (if v i then (f i).2 else (f i).1)

/-- The deterministic measured assignment of the recovery program built on
`encode S`: the accumulator qubit and every control qubit of the fragment
read `1`, all other value qubits read `0`. -/
def bvOutcome (S : List Char) : Fin (S.length + 1) → Bool :=
  fun i => decide (i.val = S.length ∨ i.val ∈ oneIndices S.reverse)

/-- Amplitude pairs after the ancilla flip: `|1⟩` on the accumulator, `|0⟩`
on every value qubit. -/
def bvF1 (L : Nat) : Fin (L + 1) → ℤ × ℤ :=
  fun i => if i.val = L then ((0 : ℤ), 1) else (1, 0)

/-- Amplitude pairs after the first Hadamard layer: `|−⟩` on the accumulator,
`|+⟩` on every value qubit (unnormalised). -/
def bvF2 (L : Nat) : Fin (L + 1) → ℤ × ℤ :=
  fun i => if i.val = L then ((1 : ℤ), -1) else (1, 1)

/-- Amplitude pairs after the oracle: phase kickback has turned every control
qubit of the fragment into `|−⟩` as well. -/
def bvF3 (S : List Char) : Fin (S.length + 1) → ℤ × ℤ :=
  fun i => if i.val = S.length ∨ i.val ∈ oneIndices S.reverse then ((1 : ℤ), -1)
    else (1, 1)

/-! ## Lemmas about the classical pieces -/

theorem setCode_foldl (c : List Char) :
    ∀ n, n ≤ c.length → ∀ acc : List Char,
      (List.range n).foldl (fun acc i => acc ++ [c.getD i ' ']) acc = acc ++ c.take n := by
  intro n
  induction n with
  | zero => intro _ acc; simp
  | succ m ih =>
    intro hm acc
    rw [List.range_succ, List.foldl_append, ih (by omega)]
    simp only [List.foldl_cons, List.foldl_nil]
    rw [List.take_succ, List.append_assoc]
    congr 2
    have hlt : m < c.length := by omega
    rw [List.getD_eq_getElem c ' ' hlt, List.getElem?_eq_getElem hlt]
    rfl

theorem checkAux_isSome (input : List Char) :
    ∀ (code : List Char) (k : Nat) (odd : Bool),
      (checkAux input code k odd).isSome = true ↔
        ∀ j, code.get? j = some '1' → k + j < input.length := by
  intro code
  induction code with
  | nil => intro k odd; simp [checkAux]
  | cons c rest ih =>
    intro k odd
    by_cases hc : c = '1'
    · subst hc
      have hunf : checkAux input ('1' :: rest) k odd
          = match input.get? k with
            | none => none
            | some ch => checkAux input rest (k + 1) (if ch = '1' then !odd else odd) := rfl
      rw [hunf]
      rcases hk : input.get? k with _ | ch
      · rw [List.get?_eq_none] at hk
        simp only [Option.isSome_none, Bool.false_eq_true, false_iff]
        intro hall
        have h0 := hall 0 rfl
        omega
      · have hklt : k < input.length := by
          by_contra hge
          rw [List.get?_eq_none.mpr (by omega)] at hk
          exact Option.noConfusion hk
        rw [ih (k + 1) (if ch = '1' then !odd else odd)]
        constructor
        · intro hall j hj
          cases j with
          | zero => omega
          | succ j' =>
            have := hall j' (by simpa using hj)
            omega
        · intro hall j hj
          have := hall (j + 1) (by simpa using hj)
          omega
    · simp only [checkAux, if_neg hc]
      rw [ih (k + 1) odd]
      constructor
      · intro hall j hj
        cases j with
        | zero => exact absurd (by simpa using hj) hc
        | succ j' =>
          have := hall j' (by simpa using hj)
          omega
      · intro hall j hj
        have := hall (j + 1) (by simpa using hj)
        omega

/-! ## C10: codemaker set/get round trip -/

/-- C10: for every bit-string `c`, `setCode c` followed by `getCode` returns a
string equal to `c` (setCode rebuilds the stored code character by
character, getCode exposes the stored code unchanged), and `getCode` reads
the stored code without modifying it — `setCode` is the only operation
producing a new codemaker state besides `init`. -/
theorem codemaker_set_get_roundtrip :
    (∀ (m : codemaker) (c : List Char), (m.setCode c).getCode = c) ∧
      (∀ m : codemaker, m.getCode = m.code) := by
  constructor
  · intro m c
    show ((List.range c.length).foldl (fun acc i => acc ++ [c.getD i ' ']) []) = c
    rw [setCode_foldl c c.length le_rfl []]
    simp
  · intro m
    rfl

/-! ## C1: matched iff guess equals secret -/

/-- C1: for a guess `G` of the same length as the secret `S`, `check` returns
normally and its `matched` component is `true` exactly when `G` equals `S`
bitwise. -/
theorem check_matched_iff_guess_eq_secret (S G : List Char) (hlen : G.length = S.length) :
    ∃ hint matched : Bool,
      QuantumEncoder.check S G = some (hint, matched) ∧ (matched = true ↔ G = S) := by
  have hs : (checkAux G S 0 false).isSome = true := by
    rw [checkAux_isSome]
    intro j hj
    have : j < S.length := by
      by_contra hge
      rw [List.get?_eq_none.mpr (by omega)] at hj
      exact Option.noConfusion hj
    omega
  obtain ⟨odd, hodd⟩ := Option.isSome_iff_exists.mp hs
  refine ⟨odd, S == G, ?_, ?_⟩
  · simp [QuantumEncoder.check, hodd]
  · rw [beq_iff_eq]
    exact ⟨fun h => h.symm, fun h => h.symm⟩

/-- Witness for C1 at the concrete secret `"10"` and guess `"10"`. -/
theorem check_matched_iff_guess_eq_secret_witness :
    (['1', '0'] : List Char).length = (['1', '0'] : List Char).length ∧
      ∃ hint matched : Bool,
        QuantumEncoder.check ['1', '0'] ['1', '0'] = some (hint, matched) ∧
          (matched = true ↔ (['1', '0'] : List Char) = ['1', '0']) :=
  ⟨rfl, check_matched_iff_guess_eq_secret ['1', '0'] ['1', '0'] rfl⟩

/-! ## C2: the parity hint (code bug in the flip line) -/

/-- C2, evaluated at the failing input: under the intended reading of the
source's flip line (`odd = !odd` read as boolean negation, as its comment
"flip for every black spot" documents — the literal text is not valid
Python negation), the secret `"1010"` against the guess `"1000"` (one
overlapping `1`-position) yields `parityHint = true`, and against the
guess `"0001"` (no overlap) yields `parityHint = false`, as the claim
states.  The shipped code cannot produce these booleans: its flip line is
a `SyntaxError` as plain Python and a shell-capture assignment under the
notebook's IPython kernel. -/
theorem check_parity_intended_at_failing_input :
    QuantumEncoder.check ['1', '0', '1', '0'] ['1', '0', '0', '0'] = some (true, false) ∧
      QuantumEncoder.check ['1', '0', '1', '0'] ['0', '0', '0', '1'] = some (false, false) := by
  constructor <;> rfl

/-! ## C5: no length validation in check -/

/-- C5 counterexample: the guess `"0"` has length 1 while the configured
secret `"00"` has length 2, yet `check` returns normally (no
`LengthMismatchError` — no such error exists anywhere in the source, and
`check` performs no length validation). -/
theorem check_mismatched_length_returns_cex :
    (['0'] : List Char).length ≠ (['0', '0'] : List Char).length ∧
      QuantumEncoder.check ['0', '0'] ['0'] = some (false, false) := by
  constructor
  · decide
  · rfl

/-- C5 amended: `check` performs no length validation.  It returns normally
exactly when every position at which the secret holds `'1'` lies within
the guess's length (so in particular whenever the lengths are equal); when
the secret holds a `'1'` at a position past the end of the guess, the
lookup `input[i]` fails with an `IndexError` instead of any
`LengthMismatchError`. -/
theorem check_returns_iff_ones_within_guess (S G : List Char) :
    (QuantumEncoder.check S G).isSome = true ↔
      ∀ j, S.get? j = some '1' → j < G.length := by
  unfold QuantumEncoder.check
  have hmap : ∀ o : Option Bool, (o.map (fun odd => (odd, S == G))).isSome = o.isSome := by
    intro o; cases o <;> rfl
  rw [hmap, checkAux_isSome]
  constructor
  · intro hall j hj
    have := hall j hj
    omega
  · intro hall j hj
    have := hall j hj
    omega

/-- Witness for C5's amended theorem at the secret `"00"` and guess `"0"`. -/
theorem check_returns_iff_ones_within_guess_witness :
    (QuantumEncoder.check ['0', '0'] ['0']).isSome = true ↔
      ∀ j, (['0', '0'] : List Char).get? j = some '1' → j < (['0'] : List Char).length :=
  check_returns_iff_ones_within_guess ['0', '0'] ['0']

/-! ## C9: the game loop's final report (code bug: global `p1`) -/

/-- C9, evaluated at a failing input: a game whose own Code Source produced
the secret `"0"`, while the module-global `p1` holds the different code
`"1"`.  The attempt counter behaves as claimed (starts at 1; a two-guess
run below counts 2 attempts and reports the hint of the non-matching
guess), but on a match `Game.play`'s final report prints the
module-global `p1`'s code (`print(f'... {p1.getCode()}')`) — here `"1"` —
not the secret `"0"` produced by the game's own Code Source (`self.p1`),
contradicting the claim. -/
theorem play_reports_global_p1_code :
    Game.play ['0'] ['1'] [['0']] = some ⟨1, [], ['1']⟩ ∧
      (['1'] : List Char) ≠ ['0'] ∧
      Game.play ['0', '1'] ['0', '1'] [['0', '0'], ['0', '1']] =
        some ⟨2, [false], ['0', '1']⟩ := by
  refine ⟨rfl, by decide, rfl⟩

/-! ## Lemmas about the oracle fragment's gate list -/

theorem mem_oneIndicesAux :
    ∀ (T : List Char) (k j : Nat),
      j ∈ oneIndicesAux T k ↔ ∃ i, T.get? i = some '1' ∧ j = k + i := by
  intro T
  induction T with
  | nil => intro k j; simp [oneIndicesAux]
  | cons c rest ih =>
    intro k j
    by_cases hc : c = '1'
    · subst hc
      rw [show oneIndicesAux ('1' :: rest) k = k :: oneIndicesAux rest (k + 1) from rfl,
        List.mem_cons]
      constructor
      · rintro (rfl | hmem)
        · exact ⟨0, rfl, by omega⟩
        · obtain ⟨i, hi, hj⟩ := (ih (k + 1) j).mp hmem
          exact ⟨i + 1, by simpa using hi, by omega⟩
      · rintro ⟨i, hi, rfl⟩
        cases i with
        | zero => exact Or.inl (by omega)
        | succ i' =>
          exact Or.inr ((ih (k + 1) (k + (i' + 1))).mpr ⟨i', by simpa using hi, by omega⟩)
    · simp only [oneIndicesAux, if_neg hc]
      rw [ih (k + 1) j]
      constructor
      · rintro ⟨i, hi, rfl⟩
        exact ⟨i + 1, by simpa using hi, by omega⟩
      · rintro ⟨i, hi, rfl⟩
        cases i with
        | zero =>
          exact absurd (by simpa using hi) hc
        | succ i' =>
          exact ⟨i', by simpa using hi, by omega⟩

theorem mem_oneIndices (T : List Char) (j : Nat) :
    j ∈ oneIndices T ↔ T.get? j = some '1' := by
  unfold oneIndices
  rw [mem_oneIndicesAux]
  constructor
  · rintro ⟨i, hi, rfl⟩
    simpa using hi
  · intro h
    exact ⟨j, h, by omega⟩

theorem oneIndicesAux_ge :
    ∀ (T : List Char) (k j : Nat), j ∈ oneIndicesAux T k → k ≤ j := by
  intro T
  induction T with
  | nil => intro k j h; simp [oneIndicesAux] at h
  | cons c rest ih =>
    intro k j h
    by_cases hc : c = '1'
    · rw [oneIndicesAux, if_pos hc, List.mem_cons] at h
      rcases h with rfl | h
      · exact le_rfl
      · have := ih (k + 1) j h; omega
    · rw [oneIndicesAux, if_neg hc] at h
      have := ih (k + 1) j h; omega

theorem oneIndicesAux_nodup :
    ∀ (T : List Char) (k : Nat), (oneIndicesAux T k).Nodup := by
  intro T
  induction T with
  | nil => intro k; simp [oneIndicesAux]
  | cons c rest ih =>
    intro k
    by_cases hc : c = '1'
    · rw [oneIndicesAux, if_pos hc]
      refine List.nodup_cons.mpr ⟨fun hmem => ?_, ih (k + 1)⟩
      have := oneIndicesAux_ge rest (k + 1) k hmem
      omega
    · rw [oneIndicesAux, if_neg hc]
      exact ih (k + 1)

theorem oneIndices_nodup (T : List Char) : (oneIndices T).Nodup :=
  oneIndicesAux_nodup T 0

theorem oneIndices_lt (T : List Char) (j : Nat) (h : j ∈ oneIndices T) : j < T.length := by
  rw [mem_oneIndices] at h
  by_contra hge
  rw [List.get?_eq_none.mpr (by omega)] at h
  exact Option.noConfusion h

/-! ## CX-only circuits act as basis-state permutations -/

theorem applyGate_cx_eq {n : Nat} (c t : Nat) (ψ : StateVec n) :
    applyGate (Gate.cx c t) ψ = fun v => ψ (cxStep c t v) := by
  funext v
  simp only [applyGate, cxStep]
  split_ifs <;> rfl

theorem runGates_cxOnly {n : Nat} :
    ∀ (l : List Gate), (∀ g ∈ l, ∃ c t, g = Gate.cx c t) →
      ∀ ψ : StateVec n, runGates l ψ = fun v => ψ (cxPerm l v) := by
  intro l
  induction l with
  | nil => intro _ ψ; funext v; rfl
  | cons g rest ih =>
    intro hl ψ
    obtain ⟨c, t, rfl⟩ := hl g (List.mem_cons_self g rest)
    show runGates rest (applyGate (Gate.cx c t) ψ) = _
    rw [ih (fun g hg => hl g (List.mem_cons_of_mem _ hg)) (applyGate (Gate.cx c t) ψ)]
    funext v
    rw [applyGate_cx_eq]
    rfl

theorem ctrlParity_update {n : Nat} (l : List Nat) (v : Fin n → Bool) (q : Fin n)
    (b : Bool) (hq : ∀ c ∈ l, c ≠ q.val) :
    ctrlParity l (Function.update v q b) = ctrlParity l v := by
  induction l with
  | nil => rfl
  | cons c rest ih =>
    have h1 : ctrlParity (c :: rest) (Function.update v q b)
        = xor (if h : c < n then Function.update v q b ⟨c, h⟩ else false)
            (ctrlParity rest (Function.update v q b)) := rfl
    have h2 : ctrlParity (c :: rest) v
        = xor (if h : c < n then v ⟨c, h⟩ else false) (ctrlParity rest v) := rfl
    rw [h1, h2, ih (fun x hx => hq x (List.mem_cons_of_mem _ hx))]
    congr 1
    split_ifs with h
    · refine Function.update_noteq ?_ b v
      intro heq
      exact hq c (List.mem_cons_self c rest) (by rw [← heq])
    · rfl

theorem bool_flip_parity (x p a : Bool) :
    (if x = true then !(xor p a) else xor p a) = xor (xor x p) a := by
  cases x <;> cases p <;> cases a <;> rfl

theorem cxPerm_chain {L : Nat} :
    ∀ (ctrls : List Nat), (∀ c ∈ ctrls, c < L) →
      ∀ v : Fin (L + 1) → Bool,
        cxPerm (ctrls.map fun c => Gate.cx c L) v
          = Function.update v ⟨L, Nat.lt_succ_self L⟩
              (xor (ctrlParity ctrls v) (v ⟨L, Nat.lt_succ_self L⟩)) := by
  intro ctrls
  induction ctrls with
  | nil =>
    intro _ v
    show v = _
    rw [show ctrlParity (n := L + 1) [] v = false from rfl, Bool.false_xor,
      Function.update_eq_self]
  | cons c rest ih =>
    intro hc v
    have hcL : c < L := hc c (List.mem_cons_self c rest)
    have hrest : ∀ x ∈ rest, x < L := fun x hx => hc x (List.mem_cons_of_mem _ hx)
    show cxStep c L (cxPerm (rest.map fun x => Gate.cx x L) v) = _
    rw [ih hrest v]
    unfold cxStep
    rw [dif_pos (Nat.lt_succ_of_lt hcL), dif_pos (Nat.lt_succ_self L)]
    have hne : (⟨c, Nat.lt_succ_of_lt hcL⟩ : Fin (L + 1)) ≠ ⟨L, Nat.lt_succ_self L⟩ := by
      simp only [ne_eq, Fin.mk.injEq]
      omega
    rw [Function.update_noteq hne]
    unfold flipAt
    rw [Function.update_same, Function.update_idem]
    rw [show ctrlParity (c :: rest) v
        = xor (if h : c < L + 1 then v ⟨c, h⟩ else false) (ctrlParity rest v) from rfl]
    rw [dif_pos (Nat.lt_succ_of_lt hcL)]
    cases hv : v ⟨c, Nat.lt_succ_of_lt hcL⟩ <;>
      cases hp : ctrlParity rest v <;>
        cases ha : v ⟨L, Nat.lt_succ_self L⟩ <;>
          simp [hv, hp, ha]

/-! ## C4: the oracle fragment is self-inverse -/

/-- C4: the fragment produced by `encode(S)` is self-inverse — running its
gate list twice on an arbitrary `(L+1)`-bit basis assignment returns that
assignment's state unchanged. -/
theorem encode_fragment_self_inverse (S : List Char) (v : Fin (S.length + 1) → Bool) :
    runGates (QuantumEncoder.encode S).gates
      (runGates (QuantumEncoder.encode S).gates (basisState v)) = basisState v := by
  have hall : ∀ g ∈ (QuantumEncoder.encode S).gates, ∃ c t, g = Gate.cx c t := by
    intro g hg
    obtain ⟨c, _, rfl⟩ := List.mem_map.mp hg
    exact ⟨c, S.length, rfl⟩
  have hlt : ∀ c ∈ oneIndices S.reverse, c < S.length := by
    intro c hcm
    have := oneIndices_lt S.reverse c hcm
    simpa using this
  rw [runGates_cxOnly _ hall, runGates_cxOnly _ hall]
  funext u
  show basisState v (cxPerm (QuantumEncoder.encode S).gates
    (cxPerm (QuantumEncoder.encode S).gates u)) = basisState v u
  congr 1
  show cxPerm ((oneIndices S.reverse).map fun i => Gate.cx i S.length)
      (cxPerm ((oneIndices S.reverse).map fun i => Gate.cx i S.length) u) = u
  rw [cxPerm_chain _ hlt u, cxPerm_chain _ hlt _]
  rw [ctrlParity_update _ u _ _ (fun x hx => by
    have := hlt x hx
    show x ≠ S.length
    omega)]
  rw [Function.update_same, Function.update_idem]
  rw [← Bool.xor_assoc, Bool.xor_self, Bool.false_xor, Function.update_eq_self]

/-! ## Product states and single-gate actions -/

theorem runGates_append {n : Nat} (a b : List Gate) (ψ : StateVec n) :
    runGates (a ++ b) ψ = runGates b (runGates a ψ) :=
  List.foldl_append _ _ a b

theorem prodState_apply_split {n : Nat} (f : Fin n → ℤ × ℤ) (v : Fin n → Bool) (q : Fin n) :
    prodState f v = (if v q then (f q).2 else (f q).1) *
      ∏ i ∈ Finset.univ.erase q, (if v i then (f i).2 else (f i).1) :=
  (Finset.mul_prod_erase Finset.univ _ (Finset.mem_univ q)).symm

theorem erased_prod_update_v {n : Nat} (f : Fin n → ℤ × ℤ) (v : Fin n → Bool) (q : Fin n)
    (b : Bool) :
    (∏ i ∈ Finset.univ.erase q,
        (if Function.update v q b i then (f i).2 else (f i).1))
      = ∏ i ∈ Finset.univ.erase q, (if v i then (f i).2 else (f i).1) :=
  Finset.prod_congr rfl (fun i hi => by
    rw [Function.update_noteq (Finset.ne_of_mem_erase hi)])

theorem erased_prod_update_f {n : Nat} (f : Fin n → ℤ × ℤ) (v : Fin n → Bool) (q : Fin n)
    (p : ℤ × ℤ) :
    (∏ i ∈ Finset.univ.erase q,
        (if v i then (Function.update f q p i).2 else (Function.update f q p i).1))
      = ∏ i ∈ Finset.univ.erase q, (if v i then (f i).2 else (f i).1) :=
  Finset.prod_congr rfl (fun i hi => by
    rw [Function.update_noteq (Finset.ne_of_mem_erase hi)])

theorem applyGate_x_prod {n : Nat} (qv : Nat) (h : qv < n) (f : Fin n → ℤ × ℤ) :
    applyGate (Gate.x qv) (prodState f)
      = prodState (Function.update f ⟨qv, h⟩ ((f ⟨qv, h⟩).2, (f ⟨qv, h⟩).1)) := by
  funext v
  show (if h' : qv < n then prodState f (flipAt v ⟨qv, h'⟩) else prodState f v) = _
  rw [dif_pos h]
  unfold flipAt
  rw [prodState_apply_split f _ ⟨qv, h⟩, prodState_apply_split _ v ⟨qv, h⟩,
    erased_prod_update_v, erased_prod_update_f, Function.update_same]
  congr 1
  rw [Function.update_same]
  cases hv : v ⟨qv, h⟩ <;> simp

theorem applyGate_h_prod {n : Nat} (qv : Nat) (h : qv < n) (f : Fin n → ℤ × ℤ) :
    applyGate (Gate.h qv) (prodState f)
      = prodState (Function.update f ⟨qv, h⟩ (H2 (f ⟨qv, h⟩))) := by
  funext v
  show (if h' : qv < n then
      prodState f (setAt v ⟨qv, h'⟩ false) +
        (if v ⟨qv, h'⟩ then -prodState f (setAt v ⟨qv, h'⟩ true)
          else prodState f (setAt v ⟨qv, h'⟩ true))
    else prodState f v) = _
  rw [dif_pos h]
  unfold setAt
  rw [prodState_apply_split f (Function.update v ⟨qv, h⟩ false) ⟨qv, h⟩,
    prodState_apply_split f (Function.update v ⟨qv, h⟩ true) ⟨qv, h⟩,
    prodState_apply_split _ v ⟨qv, h⟩,
    erased_prod_update_v, erased_prod_update_v, erased_prod_update_f,
    Function.update_same, Function.update_same, Function.update_same]
  show (f ⟨qv, h⟩).1 * _ + _ = _
  cases hv : v ⟨qv, h⟩ <;> simp [H2] <;> ring

theorem applyGate_cx_prod {n : Nat} (cv tv : Nat) (hc : cv < n) (ht : tv < n)
    (hne : cv ≠ tv) (f : Fin n → ℤ × ℤ)
    (hminus : (f ⟨tv, ht⟩).2 = -(f ⟨tv, ht⟩).1) :
    applyGate (Gate.cx cv tv) (prodState f)
      = prodState (Function.update f ⟨cv, hc⟩ ((f ⟨cv, hc⟩).1, -(f ⟨cv, hc⟩).2)) := by
  funext v
  show (if hc' : cv < n then
      if ht' : tv < n then
        (if v ⟨cv, hc'⟩ then prodState f (flipAt v ⟨tv, ht'⟩) else prodState f v)
      else prodState f v
    else prodState f v) = _
  rw [dif_pos hc, dif_pos ht]
  have hfne : (⟨cv, hc⟩ : Fin n) ≠ ⟨tv, ht⟩ := by
    simp only [ne_eq, Fin.mk.injEq]
    exact hne
  by_cases hv : v ⟨cv, hc⟩ = true
  · rw [if_pos hv]
    have h1 : prodState f (flipAt v ⟨tv, ht⟩) = -prodState f v := by
      unfold flipAt
      rw [prodState_apply_split f _ ⟨tv, ht⟩, erased_prod_update_v, Function.update_same,
        prodState_apply_split f v ⟨tv, ht⟩]
      cases hvt : v ⟨tv, ht⟩ <;> simp [hminus]
    have h2 : prodState (Function.update f ⟨cv, hc⟩ ((f ⟨cv, hc⟩).1, -(f ⟨cv, hc⟩).2)) v
        = -prodState f v := by
      rw [prodState_apply_split _ v ⟨cv, hc⟩, erased_prod_update_f, Function.update_same,
        prodState_apply_split f v ⟨cv, hc⟩, if_pos hv, if_pos hv]
      ring
    rw [h1, h2]
  · rw [if_neg hv]
    rw [prodState_apply_split
        (Function.update f ⟨cv, hc⟩ ((f ⟨cv, hc⟩).1, -(f ⟨cv, hc⟩).2)) v ⟨cv, hc⟩,
      erased_prod_update_f, Function.update_same,
      prodState_apply_split f v ⟨cv, hc⟩, if_neg hv, if_neg hv]

/-! ## Whole layers of gates on product states -/

theorem runGates_hLayer {n : Nat} :
    ∀ (l : List Nat), l.Nodup → (∀ j ∈ l, j < n) →
      ∀ f : Fin n → ℤ × ℤ,
        runGates (l.map Gate.h) (prodState f)
          = prodState (fun i => if i.val ∈ l then H2 (f i) else f i) := by
  intro l
  induction l with
  | nil =>
    intro _ _ f
    exact congrArg prodState (funext fun i => by simp)
  | cons q rest ih =>
    intro hnd hlt f
    have hq : q < n := hlt q (List.mem_cons_self q rest)
    show runGates (rest.map Gate.h) (applyGate (Gate.h q) (prodState f)) = _
    rw [applyGate_h_prod q hq f,
      ih (List.nodup_cons.mp hnd).2 (fun j hj => hlt j (List.mem_cons_of_mem _ hj)) _]
    refine congrArg prodState (funext fun i => ?_)
    by_cases hir : i.val ∈ rest
    · rw [if_pos hir, if_pos (List.mem_cons_of_mem _ hir)]
      have hne : i ≠ ⟨q, hq⟩ := by
        intro heq
        have hval : i.val = q := by rw [heq]
        exact (List.nodup_cons.mp hnd).1 (hval ▸ hir)
      rw [Function.update_noteq hne]
    · rw [if_neg hir]
      by_cases hiq : i.val = q
      · have hieq : i = ⟨q, hq⟩ := Fin.eq_of_val_eq hiq
        rw [if_pos (by rw [hiq]; exact List.mem_cons_self q rest), hieq,
          Function.update_same]
      · rw [if_neg (by simp [List.mem_cons, hiq, hir]),
          Function.update_noteq (fun heq => hiq (congrArg Fin.val heq))]

theorem runGates_cxChain {n : Nat} (tv : Nat) (ht : tv < n) :
    ∀ (ctrls : List Nat), ctrls.Nodup → (∀ c ∈ ctrls, c < n ∧ c ≠ tv) →
      ∀ f : Fin n → ℤ × ℤ, (f ⟨tv, ht⟩).2 = -(f ⟨tv, ht⟩).1 →
        runGates (ctrls.map fun c => Gate.cx c tv) (prodState f)
          = prodState (fun i => if i.val ∈ ctrls then ((f i).1, -(f i).2) else f i) := by
  intro ctrls
  induction ctrls with
  | nil =>
    intro _ _ f _
    exact congrArg prodState (funext fun i => by simp)
  | cons c rest ih =>
    intro hnd hcc f hminus
    obtain ⟨hcn, hct⟩ := hcc c (List.mem_cons_self c rest)
    show runGates (rest.map fun x => Gate.cx x tv)
        (applyGate (Gate.cx c tv) (prodState f)) = _
    rw [applyGate_cx_prod c tv hcn ht hct f hminus]
    have hm2 : ((Function.update f ⟨c, hcn⟩ ((f ⟨c, hcn⟩).1, -(f ⟨c, hcn⟩).2)) ⟨tv, ht⟩).2
        = -((Function.update f ⟨c, hcn⟩ ((f ⟨c, hcn⟩).1, -(f ⟨c, hcn⟩).2)) ⟨tv, ht⟩).1 := by
      rw [Function.update_noteq (fun heq => hct (congrArg Fin.val heq).symm)]
      exact hminus
    rw [ih (List.nodup_cons.mp hnd).2
      (fun x hx => hcc x (List.mem_cons_of_mem _ hx)) _ hm2]
    refine congrArg prodState (funext fun i => ?_)
    by_cases hir : i.val ∈ rest
    · rw [if_pos hir, if_pos (List.mem_cons_of_mem _ hir)]
      have hne : i ≠ ⟨c, hcn⟩ := by
        intro heq
        have hval : i.val = c := by rw [heq]
        exact (List.nodup_cons.mp hnd).1 (hval ▸ hir)
      rw [Function.update_noteq hne]
    · rw [if_neg hir]
      by_cases hic : i.val = c
      · have hieq : i = ⟨c, hcn⟩ := Fin.eq_of_val_eq hic
        rw [if_pos (by rw [hic]; exact List.mem_cons_self c rest), hieq,
          Function.update_same]
      · rw [if_neg (by simp [List.mem_cons, hic, hir]),
          Function.update_noteq (fun heq => hic (congrArg Fin.val heq))]

/-! ## Initial and final states -/

theorem initState_eq_prod (n : Nat) :
    initState n = prodState (fun _ => ((1 : ℤ), (0 : ℤ))) := by
  funext v
  show (if v = fun _ => false then (1 : ℤ) else 0) = ∏ _i, (if v _i then (0 : ℤ) else 1)
  by_cases hv : v = fun _ => false
  · subst hv; simp
  · rw [if_neg hv]
    obtain ⟨i, hi⟩ : ∃ i, v i = true := by
      by_contra hno
      push_neg at hno
      exact hv (funext fun i => by simpa using hno i)
    exact (Finset.prod_eq_zero (Finset.mem_univ i) (by rw [hi]; rfl)).symm

theorem prodState_indicator {n : Nat} (w v : Fin n → Bool) :
    prodState (fun i => if w i then ((0 : ℤ), 2) else (2, 0)) v
      = if v = w then 2 ^ n else 0 := by
  show (∏ i, (if v i then (if w i then ((0 : ℤ), 2) else (2, 0)).2
      else (if w i then ((0 : ℤ), 2) else (2, 0)).1)) = _
  rw [Finset.prod_congr rfl (fun i _ => show _ = if v i = w i then (2 : ℤ) else 0 by
    cases hvi : v i <;> cases hwi : w i <;> simp [hvi, hwi])]
  by_cases h : v = w
  · subst h
    simp [Finset.prod_const]
  · rw [if_neg h]
    obtain ⟨i, hi⟩ : ∃ i, v i ≠ w i := by
      by_contra hno
      push_neg at hno
      exact h (funext hno)
    exact Finset.prod_eq_zero (Finset.mem_univ i) (by rw [if_neg hi])

/-! ## The enumeration of basis assignments -/

theorem allAssign_complete : ∀ (n : Nat) (v : Fin n → Bool), v ∈ allAssign n := by
  intro n
  induction n with
  | zero =>
    intro v
    have hv : v = fun _ => false := funext fun i => i.elim0
    rw [hv]
    exact List.mem_singleton.mpr rfl
  | succ m ih =>
    intro v
    rw [show allAssign (m + 1)
        = (allAssign m).flatMap (fun a => [Fin.cons false a, Fin.cons true a]) from rfl]
    rw [List.mem_flatMap]
    refine ⟨Fin.tail v, ih (Fin.tail v), ?_⟩
    cases hv0 : v 0
    · have : v = Fin.cons false (Fin.tail v) := by
        rw [← hv0, Fin.cons_self_tail]
      rw [← this] at *
      exact List.mem_cons_self _ _
    · have : v = Fin.cons true (Fin.tail v) := by
        rw [← hv0, Fin.cons_self_tail]
      rw [show ([Fin.cons false (Fin.tail v), Fin.cons true (Fin.tail v)]
          : List (Fin (m + 1) → Bool))
        = [Fin.cons false (Fin.tail v)] ++ [Fin.cons true (Fin.tail v)] from rfl]
      refine List.mem_append.mpr (Or.inr ?_)
      rw [← this]
      exact List.mem_singleton.mpr rfl

theorem allAssign_nodup : ∀ n : Nat, (allAssign n).Nodup := by
  intro n
  induction n with
  | zero => simp [allAssign]
  | succ m ih =>
    rw [show allAssign (m + 1)
        = (allAssign m).flatMap (fun a => [Fin.cons false a, Fin.cons true a]) from rfl]
    rw [List.nodup_flatMap]
    refine ⟨fun a _ => ?_, ?_⟩
    · refine List.nodup_cons.mpr ⟨?_, List.nodup_singleton _⟩
      intro hmem
      have heq : (Fin.cons false a : Fin (m + 1) → Bool) = Fin.cons true a :=
        List.mem_singleton.mp hmem
      have : (false : Bool) = true := by
        have h0 := congrFun heq 0
        rwa [Fin.cons_zero, Fin.cons_zero] at h0
      exact Bool.noConfusion this
    · refine List.Pairwise.imp ?_ ih
      intro a b hab
      intro x hxa hxb
      have hta : Fin.tail x = a := by
        rcases List.mem_cons.mp hxa with h | h
        · rw [h, Fin.tail_cons]
        · rw [List.mem_singleton.mp h, Fin.tail_cons]
      have htb : Fin.tail x = b := by
        rcases List.mem_cons.mp hxb with h | h
        · rw [h, Fin.tail_cons]
        · rw [List.mem_singleton.mp h, Fin.tail_cons]
      exact hab (hta ▸ htb)

theorem filter_unique {α : Type} (p : α → Bool) (a : α) :
    ∀ (l : List α), l.Nodup → a ∈ l → (∀ x ∈ l, p x = true ↔ x = a) →
      l.filter p = [a] := by
  intro l
  induction l with
  | nil => intro _ hmem; cases hmem
  | cons b rest ih =>
    intro hnd hmem hp
    rw [List.filter_cons]
    by_cases hba : b = a
    · rw [if_pos ((hp b (List.mem_cons_self b rest)).mpr hba)]
      have hrest : rest.filter p = [] := by
        rw [List.filter_eq_nil_iff]
        intro x hx hpx
        have hxb : x = b := ((hp x (List.mem_cons_of_mem _ hx)).mp hpx).trans hba.symm
        exact (List.nodup_cons.mp hnd).1 (hxb ▸ hx)
      rw [hrest, hba]
    · rw [if_neg (fun hpb => hba ((hp b (List.mem_cons_self b rest)).mp hpb))]
      have hmem' : a ∈ rest := by
        rcases List.mem_cons.mp hmem with h | h
        · exact absurd h.symm hba
        · exact h
      exact ih (List.nodup_cons.mp hnd).2 hmem'
        (fun x hx => hp x (List.mem_cons_of_mem _ hx))

/-! ## The final state of the recovery program -/

theorem bv_final_state (S : List Char) :
    runGates (QuantumGuesser.buildCircuit (QuantumEncoder.encode S)).gates
        (initState (S.length + 1))
      = prodState (fun i => if bvOutcome S i then ((0 : ℤ), 2) else (2, 0)) := by
  have hanc : S.length < S.length + 1 := Nat.lt_succ_self _
  have hgates : (QuantumGuesser.buildCircuit (QuantumEncoder.encode S)).gates
      = [Gate.x S.length] ++ ((List.range (S.length + 1)).map Gate.h ++ ([Gate.barrier]
        ++ ((QuantumEncoder.encode S).gates ++ ([Gate.barrier]
        ++ ((List.range (S.length + 1)).map Gate.h ++ [Gate.barrier]))))) := by
    simp only [QuantumGuesser.buildCircuit, QuantumEncoder.encode, List.append_assoc,
      Nat.add_sub_cancel]
  rw [hgates, runGates_append, runGates_append, runGates_append, runGates_append,
    runGates_append, runGates_append]
  have e1 : runGates [Gate.x S.length] (initState (S.length + 1))
      = prodState (bvF1 S.length) := by
    rw [initState_eq_prod]
    show applyGate (Gate.x S.length) (prodState fun _ => ((1 : ℤ), (0 : ℤ))) = _
    rw [applyGate_x_prod S.length hanc]
    refine congrArg prodState (funext fun i => ?_)
    unfold bvF1
    by_cases hi : i.val = S.length
    · have hieq : i = ⟨S.length, hanc⟩ := Fin.eq_of_val_eq hi
      rw [hieq, Function.update_same, if_pos rfl]
    · rw [Function.update_noteq (fun heq => hi (congrArg Fin.val heq)), if_neg hi]
  rw [e1]
  have hlayer : ∀ f : Fin (S.length + 1) → ℤ × ℤ,
      runGates ((List.range (S.length + 1)).map Gate.h) (prodState f)
        = prodState (fun i => H2 (f i)) := by
    intro f
    rw [runGates_hLayer (List.range (S.length + 1)) (List.nodup_range _)
      (fun j hj => List.mem_range.mp hj) f]
    exact congrArg prodState (funext fun i => by
      rw [if_pos (List.mem_range.mpr i.isLt)])
  rw [hlayer (bvF1 S.length)]
  have e2 : (fun i => H2 (bvF1 S.length i)) = bvF2 S.length := by
    funext i
    unfold bvF1 bvF2
    by_cases hi : i.val = S.length
    · rw [if_pos hi, if_pos hi]
      rfl
    · rw [if_neg hi, if_neg hi]
      rfl
  rw [e2]
  rw [show runGates [Gate.barrier] (prodState (bvF2 S.length))
      = prodState (bvF2 S.length) from rfl]
  have e3 : runGates (QuantumEncoder.encode S).gates (prodState (bvF2 S.length))
      = prodState (bvF3 S) := by
    show runGates ((oneIndices S.reverse).map fun i => Gate.cx i S.length) _ = _
    rw [runGates_cxChain S.length hanc (oneIndices S.reverse)
      (oneIndices_nodup _)
      (fun c hcm => by
        have := oneIndices_lt _ c hcm
        rw [List.length_reverse] at this
        exact ⟨by omega, by omega⟩)
      (bvF2 S.length)
      (by unfold bvF2; rw [if_pos rfl])]
    refine congrArg prodState (funext fun i => ?_)
    unfold bvF2 bvF3
    by_cases hmem : i.val ∈ oneIndices S.reverse
    · have hlt : i.val < S.length := by
        have := oneIndices_lt _ _ hmem
        rw [List.length_reverse] at this
        exact this
      rw [if_pos hmem, if_neg (by omega), if_pos (Or.inr hmem)]
    · rw [if_neg hmem]
      by_cases hi : i.val = S.length
      · rw [if_pos hi, if_pos (Or.inl hi)]
      · rw [if_neg hi, if_neg (fun hor => hor.elim hi hmem)]
  rw [e3]
  rw [show runGates [Gate.barrier] (prodState (bvF3 S)) = prodState (bvF3 S) from rfl]
  rw [hlayer (bvF3 S)]
  refine congrArg prodState (funext fun i => ?_)
  unfold bvF3 bvOutcome
  by_cases h : i.val = S.length ∨ i.val ∈ oneIndices S.reverse
  · rw [if_pos h, if_pos (decide_eq_true h)]
    rfl
  · rw [if_neg h, if_neg (fun hd => h (of_decide_eq_true hd))]
    rfl

theorem bv_amp (S : List Char) (v : Fin (S.length + 1) → Bool) :
    runGates (QuantumGuesser.buildCircuit (QuantumEncoder.encode S)).gates
        (initState (S.length + 1)) v
      = if v = bvOutcome S then 2 ^ (S.length + 1) else 0 :=
  (congrFun (bv_final_state S) v).trans (prodState_indicator (bvOutcome S) v)

/-! ## Decoding the measured assignment back into the secret -/

theorem map_oneIndices_eq (T : List Char) (hbit : isBitString T) :
    (List.range T.length).map (fun j => if j ∈ oneIndices T then '1' else '0') = T := by
  apply List.ext_getElem
  · simp
  · intro p h1 h2
    rw [List.getElem_map, List.getElem_range]
    rcases hbit T[p] (List.getElem_mem h2) with h0 | h1c
    · rw [if_neg (by
        rw [mem_oneIndices, List.get?_eq_getElem?, List.getElem?_eq_getElem h2, h0]
        simp)]
      exact h0.symm
    · rw [if_pos (by
        rw [mem_oneIndices, List.get?_eq_getElem?, List.getElem?_eq_getElem h2, h1c])]
      exact h1c.symm

theorem countsKey_bv (S : List Char) (hbit : isBitString S) :
    countsKey (S.length + 1) S.length (bvOutcome S) = S := by
  unfold countsKey
  have hmap : ((List.range S.length).reverse.map fun j =>
      if h : j < (S.length + 1) - 1 then
        (if bvOutcome S ⟨j, Nat.lt_of_lt_of_le h (Nat.sub_le (S.length + 1) 1)⟩
          then '1' else '0')
      else '0')
    = (List.range S.length).reverse.map fun j =>
        if j ∈ oneIndices S.reverse then '1' else '0' := by
    apply List.map_congr_left
    intro j hj
    have hjL : j < S.length := by
      rw [List.mem_reverse, List.mem_range] at hj
      exact hj
    rw [dif_pos (show j < (S.length + 1) - 1 from by omega)]
    by_cases hmem : j ∈ oneIndices S.reverse
    · simp [bvOutcome, hmem]
    · simp [bvOutcome, hmem, Nat.ne_of_lt hjL]
  rw [hmap, List.map_reverse]
  have hrange : (List.range S.length).map
      (fun j => if j ∈ oneIndices S.reverse then '1' else '0') = S.reverse := by
    have hlen : S.length = S.reverse.length := (List.length_reverse S).symm
    have hbit' : isBitString S.reverse := fun c hc =>
      hbit c (List.mem_reverse.mp hc)
    have := map_oneIndices_eq S.reverse hbit'
    rw [← hlen] at this
    exact this
  rw [hrange, List.reverse_reverse]

theorem idealExecute_bv (S : List Char) (hbit : isBitString S) (shots : Nat)
    (hs : 1 ≤ shots) :
    idealExecute (QuantumGuesser.buildCircuit (QuantumEncoder.encode S)) shots
      = Except.ok [(S, shots)] := by
  unfold idealExecute
  rw [if_neg (by omega)]
  have hfilter :
      (allAssign ((QuantumGuesser.buildCircuit (QuantumEncoder.encode S)).num_qubits)).filter
        (fun v => decide (runGates
          (QuantumGuesser.buildCircuit (QuantumEncoder.encode S)).gates
          (initState ((QuantumGuesser.buildCircuit (QuantumEncoder.encode S)).num_qubits))
          v ≠ 0))
      = [bvOutcome S] := by
    apply filter_unique _ (bvOutcome S) _ (allAssign_nodup _)
      (allAssign_complete _ (bvOutcome S))
    intro v _
    simp only [decide_eq_true_eq]
    show runGates (QuantumGuesser.buildCircuit (QuantumEncoder.encode S)).gates
        (initState (S.length + 1)) v ≠ 0 ↔ v = bvOutcome S
    rw [bv_amp S v]
    constructor
    · intro hne
      by_contra hvne
      rw [if_neg hvne] at hne
      exact hne rfl
    · intro hveq
      rw [if_pos hveq]
      exact pow_ne_zero _ (by norm_num)
  rw [hfilter]
  show Except.ok [(countsKey (S.length + 1) S.length (bvOutcome S), shots)]
    = Except.ok [(S, shots)]
  rw [countsKey_bv S hbit]

theorem bv_correct (S : List Char) (hbit : isBitString S) (shots : Nat)
    (hs : 1 ≤ shots) :
    QuantumGuesser.guess idealExecute shots (QuantumEncoder.encode S)
      = Except.ok S := by
  unfold QuantumGuesser.guess
  rw [idealExecute_bv S hbit shots hs]
  rfl

/-! ## C3: single-query recovery of the secret -/

/-- C3: under the ideal (noiseless) simulator capability, for every secret
bit-string `S` with `1 ≤ L ≤ 8`, `recover(encode(S), shots=1)` returns
exactly `S`; moreover the solver consults the fragment only through the
single oracle application step — for every fragment, the composed program
is a fixed prefix, then the fragment's gates exactly once, then a fixed
suffix, neither depending on the fragment's contents. -/
theorem recover_returns_secret (S : List Char) (h1 : 1 ≤ S.length)
    (h8 : S.length ≤ 8) (hbit : isBitString S) :
    QuantumGuesser.guess idealExecute 1 (QuantumEncoder.encode S) = Except.ok S ∧
      ∀ frag : Circuit, (QuantumGuesser.buildCircuit frag).gates
        = bvPre frag.num_qubits ++ frag.gates ++ bvSuf frag.num_qubits :=
  ⟨bv_correct S hbit 1 le_rfl, fun frag => by
    simp [QuantumGuesser.buildCircuit, bvPre, bvSuf, List.append_assoc]⟩

/-- Witness for C3 at the concrete secret `"1"` (the spec's Scenario 3). -/
theorem recover_returns_secret_witness :
    1 ≤ (['1'] : List Char).length ∧ (['1'] : List Char).length ≤ 8 ∧
      isBitString ['1'] ∧
      (QuantumGuesser.guess idealExecute 1 (QuantumEncoder.encode ['1'])
          = Except.ok ['1'] ∧
        ∀ frag : Circuit, (QuantumGuesser.buildCircuit frag).gates
          = bvPre frag.num_qubits ++ frag.gates ++ bvSuf frag.num_qubits) :=
  ⟨by decide, by decide, by decide,
    recover_returns_secret ['1'] (by decide) (by decide) (by decide)⟩

/-! ## C8: the degenerate empty secret -/

/-- C8: for `L = 0`, `encode("")` yields a no-op fragment (its gate list is
empty), `recover` applied to that fragment returns the empty string
without failing, and `check("")` on the empty secret returns
`(parityHint = false, matched = true)`. -/
theorem degenerate_empty_secret :
    (QuantumEncoder.encode []).gates = [] ∧
      QuantumGuesser.guess idealExecute 1 (QuantumEncoder.encode [])
        = Except.ok [] ∧
      QuantumEncoder.check [] [] = some (false, true) :=
  ⟨rfl, bv_correct [] (fun c hc => absurd hc (List.not_mem_nil c)) 1 le_rfl, rfl⟩

/-! ## C6: shots validation happens in the simulator, not the solver -/

/-- C6 counterexample: with `shots = 0` (`< 1`) and a capability that simply
hands back a result, `recover` returns that result successfully — the
solver performs no shots validation of its own before invoking the
State Simulator, so it does not fail with `InvalidProgramError` "before
invoking the State Simulator" as claimed. -/
theorem recover_no_shots_precheck_cex :
    (0 : Nat) < 1 ∧
      QuantumGuesser.guess (fun _ _ => Except.ok [(['0'], 1)]) 0
        (QuantumEncoder.encode ['0']) = Except.ok ['0'] :=
  ⟨by decide, rfl⟩

/-- C6 amended: `recover(fragment, shots)` fails with `InvalidProgramError`
whenever `shots < 1`, but the error arises inside the State Simulator
capability invocation (which rejects the malformed shot count) and is
propagated unchanged by the solver — the solver itself performs no
validation before invoking the simulator. -/
theorem recover_shots_error_from_simulator (frag : Circuit) (shots : Nat)
    (h : shots < 1) :
    QuantumGuesser.guess idealExecute shots frag
      = Except.error QErr.invalidProgram := by
  unfold QuantumGuesser.guess idealExecute
  rw [if_pos h]

/-- Witness for C6's amended theorem at `shots = 0` on the fragment for
secret `"1"`. -/
theorem recover_shots_error_from_simulator_witness :
    (0 : Nat) < 1 ∧
      QuantumGuesser.guess idealExecute 0 (QuantumEncoder.encode ['1'])
        = Except.error QErr.invalidProgram :=
  ⟨by decide, recover_shots_error_from_simulator (QuantumEncoder.encode ['1']) 0
    (by decide)⟩

/-! ## C7: the majority-vote decode -/

theorem lexLt_cons_eq (x y : Char) (xs ys : List Char) :
    lexLt (x :: xs) (y :: ys)
      = if x < y then true else if x = y then lexLt xs ys else false := rfl

theorem lexLt_trans :
    ∀ (a b c : List Char), lexLt a b = true → lexLt b c = true → lexLt a c = true := by
  intro a
  induction a with
  | nil =>
    intro b c h1 h2
    cases b with
    | nil => exact Bool.noConfusion h1
    | cons y ys =>
      cases c with
      | nil => exact Bool.noConfusion h2
      | cons z zs => rfl
  | cons x xs ih =>
    intro b c h1 h2
    cases b with
    | nil => exact Bool.noConfusion h1
    | cons y ys =>
      cases c with
      | nil => exact Bool.noConfusion h2
      | cons z zs =>
        rw [lexLt_cons_eq] at h1 h2 ⊢
        by_cases hxy : x < y
        · by_cases hyz : y < z
          · rw [if_pos (lt_trans hxy hyz)]
          · rw [if_neg hyz] at h2
            by_cases hy : y = z
            · rw [if_pos (show x < z by rw [← hy]; exact hxy)]
            · rw [if_neg hy] at h2
              exact Bool.noConfusion h2
        · rw [if_neg hxy] at h1
          by_cases hxeq : x = y
          · rw [if_pos hxeq] at h1
            by_cases hyz : y < z
            · rw [if_pos (show x < z by rw [hxeq]; exact hyz)]
            · rw [if_neg hyz] at h2
              by_cases hy : y = z
              · rw [if_pos hy] at h2
                rw [if_neg (show ¬x < z by rw [hxeq, hy]; exact lt_irrefl z),
                  if_pos (hxeq.trans hy)]
                exact ih ys zs h1 h2
              · rw [if_neg hy] at h2
                exact Bool.noConfusion h2
          · rw [if_neg hxeq] at h1
            exact Bool.noConfusion h1

theorem lexLt_connex :
    ∀ (a b : List Char), a = b ∨ lexLt a b = true ∨ lexLt b a = true := by
  intro a
  induction a with
  | nil =>
    intro b
    cases b with
    | nil => exact Or.inl rfl
    | cons y ys => exact Or.inr (Or.inl rfl)
  | cons x xs ih =>
    intro b
    cases b with
    | nil => exact Or.inr (Or.inr rfl)
    | cons y ys =>
      rcases lt_trichotomy x y with h | h | h
      · exact Or.inr (Or.inl (by rw [lexLt_cons_eq, if_pos h]))
      · subst h
        rcases ih ys with he | hl | hl
        · exact Or.inl (by rw [he])
        · exact Or.inr (Or.inl (by
            rw [lexLt_cons_eq, if_neg (lt_irrefl x), if_pos rfl]
            exact hl))
        · exact Or.inr (Or.inr (by
            rw [lexLt_cons_eq, if_neg (lt_irrefl x), if_pos rfl]
            exact hl))
      · exact Or.inr (Or.inr (by rw [lexLt_cons_eq, if_pos h]))

theorem bestOf_cons (e p : List Char × Nat) (rest : List (List Char × Nat)) :
    bestOf e (p :: rest)
      = bestOf (if e.2 < p.2 ∨ (p.2 = e.2 ∧ lexLt p.1 e.1 = true) then p else e)
          rest := rfl

theorem bestOf_spec :
    ∀ (rest : List (List Char × Nat)) (e : List Char × Nat),
      (bestOf e rest = e ∨ bestOf e rest ∈ rest) ∧
        e.2 ≤ (bestOf e rest).2 ∧
        (∀ p ∈ rest, p.2 ≤ (bestOf e rest).2) ∧
        (e.2 = (bestOf e rest).2 →
          e.1 = (bestOf e rest).1 ∨ lexLt (bestOf e rest).1 e.1 = true) ∧
        (∀ p ∈ rest, p.2 = (bestOf e rest).2 →
          p.1 = (bestOf e rest).1 ∨ lexLt (bestOf e rest).1 p.1 = true) := by
  intro rest
  induction rest with
  | nil =>
    intro e
    exact ⟨Or.inl rfl, le_rfl, by simp, fun _ => Or.inl rfl, by simp⟩
  | cons p rest ih =>
    intro e
    rw [bestOf_cons]
    by_cases hbet : e.2 < p.2 ∨ (p.2 = e.2 ∧ lexLt p.1 e.1 = true)
    · rw [if_pos hbet]
      obtain ⟨hmem, hle, hall, htie, hties⟩ := ih p
      have hep : e.2 ≤ p.2 := by
        rcases hbet with h | ⟨h, _⟩
        · exact le_of_lt h
        · omega
      refine ⟨?_, le_trans hep hle, ?_, ?_, ?_⟩
      · rcases hmem with h | h
        · exact Or.inr (by rw [h]; exact List.mem_cons_self p rest)
        · exact Or.inr (List.mem_cons_of_mem _ h)
      · intro q hq
        rcases List.mem_cons.mp hq with rfl | hq'
        · exact hle
        · exact hall q hq'
      · intro hte
        rcases hbet with h | ⟨hpe, hlex⟩
        · exact absurd (lt_of_lt_of_le h hle) (by omega)
        · have htp := htie (by omega)
          rcases htp with heq | hlt
          · exact Or.inr (by rw [← heq]; exact hlex)
          · exact Or.inr (lexLt_trans _ _ _ hlt hlex)
      · intro q hq htq
        rcases List.mem_cons.mp hq with rfl | hq'
        · exact htie htq
        · exact hties q hq' htq
    · rw [if_neg hbet]
      obtain ⟨hmem, hle, hall, htie, hties⟩ := ih e
      have hb1 : ¬e.2 < p.2 := fun h => hbet (Or.inl h)
      have hb2 : ¬(p.2 = e.2 ∧ lexLt p.1 e.1 = true) := fun h => hbet (Or.inr h)
      refine ⟨?_, hle, ?_, htie, ?_⟩
      · rcases hmem with h | h
        · exact Or.inl h
        · exact Or.inr (List.mem_cons_of_mem _ h)
      · intro q hq
        rcases List.mem_cons.mp hq with rfl | hq'
        · exact le_trans (by omega) hle
        · exact hall q hq'
      · intro q hq htq
        rcases List.mem_cons.mp hq with rfl | hq'
        · have hpe : q.2 = e.2 := by omega
          have hnlex : ¬lexLt q.1 e.1 = true := fun hl => hb2 ⟨hpe, hl⟩
          have hte := htie (by omega)
          rcases lexLt_connex q.1 e.1 with hpe1 | hpl | hel
          · rcases hte with h | h
            · exact Or.inl (hpe1.trans h)
            · exact Or.inr (by rw [← hpe1] at h; exact h)
          · exact absurd hpl hnlex
          · rcases hte with h | h
            · exact Or.inr (by rw [h] at hel; exact hel)
            · exact Or.inr (lexLt_trans _ _ _ h hel)
        · exact hties q hq' htq

/-- C7: the solver's decode adopts the most frequent outcome of the frequency
table handed back by the execution capability; when several outcomes
share the maximal frequency it deterministically returns the
lexicographically smallest of them (it returns successfully rather than
failing on ties). -/
theorem guess_decodes_most_frequent (counts : List (List Char × Nat))
    (frag : Circuit) (shots : Nat) (h : counts ≠ []) :
    ∃ k c, QuantumGuesser.guess (fun _ _ => Except.ok counts) shots frag
        = Except.ok k ∧
      (k, c) ∈ counts ∧ (∀ p ∈ counts, p.2 ≤ c) ∧
      (∀ p ∈ counts, p.2 = c → p.1 = k ∨ lexLt k p.1 = true) := by
  match counts, h with
  | e :: rest, _ =>
    obtain ⟨hmem, hle, hall, htie, hties⟩ := bestOf_spec rest e
    refine ⟨(bestOf e rest).1, (bestOf e rest).2, rfl, ?_, ?_, ?_⟩
    · rw [Prod.mk.eta]
      rcases hmem with h' | h'
      · rw [h']
        exact List.mem_cons_self e rest
      · exact List.mem_cons_of_mem _ h'
    · intro p hp
      rcases List.mem_cons.mp hp with rfl | hp'
      · exact hle
      · exact hall p hp'
    · intro p hp htp
      rcases List.mem_cons.mp hp with rfl | hp'
      · exact htie htp
      · exact hties p hp' htp

/-- Witness for C7: a two-way tie at count 2 between `"10"` and `"01"`. -/
theorem guess_decodes_most_frequent_witness :
    ([(['1', '0'], 2), (['0', '1'], 2)] : List (List Char × Nat)) ≠ [] ∧
      ∃ k c, QuantumGuesser.guess
          (fun _ _ => Except.ok [(['1', '0'], 2), (['0', '1'], 2)]) 1
          (QuantumEncoder.encode ['0']) = Except.ok k ∧
        (k, c) ∈ ([(['1', '0'], 2), (['0', '1'], 2)] : List (List Char × Nat)) ∧
        (∀ p ∈ ([(['1', '0'], 2), (['0', '1'], 2)] : List (List Char × Nat)),
          p.2 ≤ c) ∧
        (∀ p ∈ ([(['1', '0'], 2), (['0', '1'], 2)] : List (List Char × Nat)),
          p.2 = c → p.1 = k ∨ lexLt k p.1 = true) :=
  ⟨by decide, guess_decodes_most_frequent _ (QuantumEncoder.encode ['0']) 1
    (by decide)⟩
